import Mathlib

/-!
Verification of the rate-limit-aware, paginating GitHub API client
(`backend/services/github.py`) and the Redis connection wrapper
(`backend/utils/redis_client.py`).

The Python code is shallowly embedded as executable Lean definitions:

* `GitHubService.extract_next_url` embeds `_extract_next_url`, including a
  faithful executable model of the fixed regular expression
  `<([^>]+)>;\s*rel="next"` used with `re.search` (leftmost match; the
  quantifiers `[^>]+` and `\s*` are forced, so matching is deterministic).
* `luaUpdateRateLimit` embeds the `LUA_UPDATE_RATE_LIMIT` script acting on a
  four-key store (`timestamp`, `reset`, `remaining`, `limit`); each key holds
  a value together with the expiry it was written with.
* `GitHubService.update_rate_limit` embeds `_update_rate_limit` (header
  extraction, TTL computation, and the eval-call arguments).
* `GitHubService.check_rate_limit` embeds `_check_rate_limit` as a function
  returning the sleep duration, if any.
* `GitHubService.get` embeds the `get` coroutine as a trace-producing
  function: the server is a function from URL to response, recursion through
  pagination is bounded by explicit fuel, and the observable steps
  (pre-flight check, HTTP request, raising on status, rate-limit sync) are
  recorded as an event list next to the returned value.
* `RedisClient` / `GitHubService` connection lifecycles are embedded as
  explicit state machines over a memoized optional connection id.
-/

/-- Python `\s` on the ASCII range (the characters the regex in
`_extract_next_url` treats as whitespace). -/
def isPySpace (c : Char) : Bool :=
  c = ' ' || c = '\t' || c = '\n' || c = '\r' || c = '\x0b' || c = '\x0c'

namespace GitHubService

/-- The literal characters `rel="` of the pattern `<([^>]+)>;\s*rel="next"`. -/
def relLit : List Char := ['r', 'e', 'l', '=', '"']

/-- The characters of the relation name `next`. -/
def nextChars : List Char := ['n', 'e', 'x', 't']

/-- The trailing literal `rel="next"` of the pattern. -/
def nextLit : List Char := relLit ++ nextChars ++ ['"']

/-- After `<([^>]+)>;\s*` has matched, the regex requires the literal
`rel="next"`; on success the captured group (the URL) is returned. -/
def matchRel (url r4 : List Char) : Option (List Char) :=
  if nextLit.isPrefixOf r4 then some url else none

/-- Matching of `([^>]+)>;\s*rel="next"` directly after a `<`:
`[^>]+` is forced to the maximal run of non-`>` characters and must be
nonempty, then `>;` and the maximal run of whitespace are consumed. -/
def matchAfterLt (rest : List Char) : Option (List Char) :=
  match rest.dropWhile (fun c => c != '>') with
  | '>' :: ';' :: r3 =>
    if rest.takeWhile (fun c => c != '>') = [] then none
    else matchRel (rest.takeWhile (fun c => c != '>')) (r3.dropWhile isPySpace)
  | _ => none

/-- Matching of the whole pattern `<([^>]+)>;\s*rel="next"` at the start of
the given character list. -/
def matchAt : List Char → Option (List Char)
  | [] => none
  | c :: rest => if c = '<' then matchAfterLt rest else none

/-- `re.search`: return the captured group of the leftmost position at which
the pattern matches. -/
def searchFirst : List Char → Option (List Char)
  | [] => none
  | c :: rest =>
    match matchAt (c :: rest) with
    | some u => some u
    | none => searchFirst rest

/-- Embedding of `GitHubService._extract_next_url`: `None`/empty headers give
`None`, otherwise the first match of `<([^>]+)>;\s*rel="next"` is returned. -/
def extract_next_url (link_header : Option String) : Option String :=
  match link_header with
  | none => none
  | some s => if s = "" then none else (searchFirst s.toList).map String.mk

end GitHubService

/-- The cache-resident rate-limit record: the four Redis keys written by the
Lua script.  Each present key stores its string value (the `timestamp` key a
numeric value, compared by `tonumber` in the script) together with the expiry
it was last written with. -/
structure RateLimitStore where
  timestamp : Option (ℚ × ℤ)
  reset : Option (String × ℤ)
  remaining : Option (String × ℤ)
  limit : Option (String × ℤ)
deriving DecidableEq

/-- Embedding of `GitHubService.LUA_UPDATE_RATE_LIMIT`.  Arguments mirror
`ARGV[1]`..`ARGV[5]`: candidate timestamp, shared TTL, reset value, remaining
value, limit value.  The script reads the stored timestamp; if it is absent
or `<=` the candidate it writes the keys (remaining/limit only when their
value is non-empty) all with the shared TTL and returns `1`, otherwise it
leaves the store untouched and returns `0`. -/
def luaUpdateRateLimit (st : RateLimitStore) (currentTimestamp : ℚ) (ttl : ℤ)
    (resetV remainingV limitV : String) : ℕ × RateLimitStore :=
  let applied : RateLimitStore :=
    { timestamp := some (currentTimestamp, ttl)
      reset := some (resetV, ttl)
      remaining := if remainingV ≠ "" then some (remainingV, ttl) else st.remaining
      limit := if limitV ≠ "" then some (limitV, ttl) else st.limit }
  match st.timestamp with
  | none => (1, applied)
  | some (stored, _) => if stored ≤ currentTimestamp then (1, applied) else (0, st)

/-- The rate-limit response headers consumed by `_update_rate_limit`:
`X-RateLimit-Reset` (parsed with `int`), `X-RateLimit-Remaining` and
`X-RateLimit-Limit` (read with `headers.get(..., "")`). -/
structure RLHeaders where
  reset : Option ℤ
  remaining : Option String
  limit : Option String
deriving DecidableEq

/-- The argument vector passed to `client.eval` by `_update_rate_limit`. -/
structure EvalCall where
  currentTimestamp : ℚ
  ttl : ℤ
  resetV : String
  remainingV : String
  limitV : String
deriving DecidableEq

namespace GitHubService

/-- Embedding of the argument computation in `_update_rate_limit`: when the
`X-RateLimit-Reset` header is absent no eval call is made; otherwise the TTL
is `max(reset_time - now, 60)` and missing optional headers default to the
empty string.  `now` is `int(datetime.now().timestamp())` and
`currentTimestamp` is the (fractional) `datetime.now().timestamp()`. -/
def update_rate_limit_call (h : RLHeaders) (now : ℤ) (currentTimestamp : ℚ) :
    Option EvalCall :=
  match h.reset with
  | none => none
  | some resetTime =>
    some { currentTimestamp := currentTimestamp
           ttl := max (resetTime - now) 60
           resetV := toString resetTime
           remainingV := h.remaining.getD ""
           limitV := h.limit.getD "" }

/-- Embedding of `_update_rate_limit`: run the Lua script with the computed
arguments against the store, or leave the store alone when the reset header
is absent. -/
def update_rate_limit (h : RLHeaders) (now : ℤ) (currentTimestamp : ℚ)
    (st : RateLimitStore) : RateLimitStore :=
  match update_rate_limit_call h now currentTimestamp with
  | none => st
  | some c => (luaUpdateRateLimit st c.currentTimestamp c.ttl c.resetV c.remainingV c.limitV).2

/-- Embedding of `_check_rate_limit`: given the cached `remaining` and
`reset` values and the current time, return `some d` when the coroutine
sleeps for `d` seconds and `none` when it does not sleep.  The code sleeps
for `wait_seconds + 1` where `wait_seconds = reset - now`, and only when
`remaining` is present and `< 10`, `reset` is present, and `wait_seconds`
is positive. -/
def check_rate_limit (remaining reset_time : Option ℤ) (now : ℤ) : Option ℤ :=
  match remaining with
  | none => none
  | some r =>
    if r < 10 then
      match reset_time with
      | none => none
      | some t =>
        if t - now > 0 then some (t - now + 1) else none
    else none

end GitHubService

/-- An HTTP response as consumed by `get`: status code, body text (used in
the raised error), JSON items (for paginated collection endpoints), the
`Link` header and the three rate-limit headers. -/
structure Response where
  status : ℕ
  text : String
  items : List ℕ
  link : Option String
  rl : RLHeaders

/-- The observable steps of one `get()` call, in execution order:
the pre-flight rate-limit check, an HTTP request (with its URL and query
parameters), raising `HTTPStatusError` (with status code and body), and the
rate-limit sync (`_update_rate_limit`) for the response of the given URL. -/
inductive Ev where
  | preflight : Ev
  | request : String → List (String × String) → Ev
  | raiseStatus : ℕ → String → Ev
  | rlUpdate : String → Ev
deriving DecidableEq

/-- `httpx.Response.raise_for_status` raises unless the status is 2xx. -/
def is2xx (s : ℕ) : Bool := 200 ≤ s && s < 300

namespace GitHubService

/-- `self.base_url` as set in `__init__`. -/
def base_url : String := "https://api.github.com"

/-- The pagination `while url:` loop of `get` (steps 2-4 repeated per page).
`server` maps a URL to the response the upstream returns for it; `fuel`
bounds the number of pages (the Python loop has no own bound, so every
theorem is stated for all fuel).  Returns the event trace together with the
result: the aggregated items, or the raised status error (code, body). -/
def getLoop (server : String → Response) :
    ℕ → String → List (String × String) → List ℕ →
    List Ev × Except (ℕ × String) (List ℕ)
  | 0, _, _, acc => ([], Except.ok acc)
  | fuel + 1, url, curParams, acc =>
    if is2xx (server url).status then
      match extract_next_url (server url).link with
      | some nextUrl =>
        (Ev.request url curParams :: Ev.rlUpdate url ::
          (getLoop server fuel nextUrl [] (acc ++ (server url).items)).1,
         (getLoop server fuel nextUrl [] (acc ++ (server url).items)).2)
      | none =>
        ([Ev.request url curParams, Ev.rlUpdate url],
         Except.ok (acc ++ (server url).items))
    else
      ([Ev.request url curParams, Ev.raiseStatus (server url).status (server url).text],
       Except.error ((server url).status, (server url).text))

/-- Embedding of `GitHubService.get`: a pre-flight check, then either a
single request/raise-check/sync, or the pagination loop started at
`base_url/endpoint` with the caller's params (`params or {}`). -/
def get (server : String → Response) (fuel : ℕ) (endpoint : String)
    (params : Option (List (String × String))) (paginate : Bool) :
    List Ev × Except (ℕ × String) (List ℕ) :=
  let url := base_url ++ "/" ++ endpoint
  if paginate then
    ((Ev.preflight :: (getLoop server fuel url (params.getD []) []).1),
     (getLoop server fuel url (params.getD []) []).2)
  else
    if is2xx (server url).status then
      ([Ev.preflight, Ev.request url (params.getD []), Ev.rlUpdate url],
       Except.ok (server url).items)
    else
      ([Ev.preflight, Ev.request url (params.getD []),
        Ev.raiseStatus (server url).status (server url).text],
       Except.error ((server url).status, (server url).text))

end GitHubService

/-- Per-process connection-singleton state shared by the two lifecycle
embeddings: the memoized connection (`_instance` / `_client`) as an optional
connection id, a supply of fresh ids (every id ever created is `< nextId`),
and the list of ids whose connection has been closed. -/
structure ConnState where
  inst : Option ℕ
  nextId : ℕ
  closed : List ℕ
deriving DecidableEq

namespace RedisClient

/-- Embedding of `RedisClient.get_client`: return the memoized instance, or
create (and memoize) a fresh one when none exists. -/
def get_client (s : ConnState) : ℕ × ConnState :=
  match s.inst with
  | some i => (i, s)
  | none => (s.nextId, { inst := some s.nextId, nextId := s.nextId + 1, closed := s.closed })

/-- Embedding of `RedisClient.close`: close the memoized instance if there is
one.  The field `_instance` is NOT reset to `None`. -/
def close (s : ConnState) : ConnState :=
  match s.inst with
  | some i => { inst := s.inst, nextId := s.nextId, closed := i :: s.closed }
  | none => s

end RedisClient

namespace GitHubService

/-- Embedding of `GitHubService.get_client` (same lazy-singleton pattern as
`RedisClient.get_client`). -/
def get_client (s : ConnState) : ℕ × ConnState :=
  match s.inst with
  | some i => (i, s)
  | none => (s.nextId, { inst := some s.nextId, nextId := s.nextId + 1, closed := s.closed })

/-- Embedding of `GitHubService.close_client`: close the client if present
and reset the singleton field to `None`. -/
def close_client (s : ConnState) : ConnState :=
  match s.inst with
  | some i => { inst := none, nextId := s.nextId, closed := i :: s.closed }
  | none => s

end GitHubService

/-!  Specification-side model of well-formed `Link` headers (from the spec:
"the header is a comma-separated list of `<url>; rel="name"` entries ...
tolerating extra whitespace and additional relation entries"). -/

/-- One `Link`-header entry `<url>; rel="name"`: optional whitespace before
the entry, the bracketed URL, whitespace between `;` and `rel=`, and the
relation name. -/
structure LinkEntry where
  pre : List Char
  url : List Char
  ws : List Char
  rel : List Char

/-- Rendering of one entry as characters: `<url>;` then whitespace then
`rel="name"`. -/
def renderEntry (e : LinkEntry) : List Char :=
  e.pre ++ '<' :: (e.url ++ '>' :: ';' ::
    (e.ws ++ (GitHubService.relLit ++ (e.rel ++ ['"']))))

/-- Rendering of the remaining entries, each preceded by the `,` separator. -/
def renderTail : List LinkEntry → List Char
  | [] => []
  | e :: es => ',' :: (renderEntry e ++ renderTail es)

/-- Rendering of a whole `Link` header: a comma-separated entry list. -/
def renderHeader : List LinkEntry → List Char
  | [] => []
  | e :: es => renderEntry e ++ renderTail es

/-- Well-formedness of an entry: the padding is whitespace, the URL is a
nonempty bracketable string (no `>`), and the relation name avoids the
delimiter characters. -/
def EntryWF (e : LinkEntry) : Prop :=
  (∀ c ∈ e.pre, isPySpace c = true) ∧
  e.url ≠ [] ∧ '>' ∉ e.url ∧
  (∀ c ∈ e.ws, isPySpace c = true) ∧
  (∀ c ∈ e.rel, c ≠ '<' ∧ c ≠ '>' ∧ c ≠ '"')

instance (e : LinkEntry) : Decidable (EntryWF e) := by
  unfold EntryWF; infer_instance

/-!  Concrete instances used by counterexamples and witnesses. -/

/-- A fully populated rate-limit store whose stored logical timestamp is 1
(with expiry 100 on every key). -/
def storeFull : RateLimitStore :=
  { timestamp := some (1, 100)
    reset := some ("150", 100)
    remaining := some ("9", 100)
    limit := some ("10", 100) }

/-- A response's rate-limit headers carrying `X-RateLimit-Reset` but neither
`X-RateLimit-Remaining` nor `X-RateLimit-Limit` (as exercised by the repo's
`test_update_rate_limit_with_missing_optional_headers`). -/
def headersNoRemaining : RLHeaders :=
  { reset := some 160, remaining := none, limit := none }

/-- First page of a two-page collection; its `Link` header points at the
second page. -/
def pageOne : Response :=
  { status := 200, text := "", items := [1]
    link := some "<https://api.github.com/x?page=2>; rel=\"next\""
    rl := { reset := none, remaining := none, limit := none } }

/-- Second and last page of the collection (no `Link` header). -/
def pageTwo : Response :=
  { status := 200, text := "", items := [2]
    link := none
    rl := { reset := none, remaining := none, limit := none } }

/-- A server serving the two-page collection: the second-page URL returns
`pageTwo`, everything else returns `pageOne`. -/
def serverTwoPages : String → Response := fun u =>
  if u = "https://api.github.com/x?page=2" then pageTwo else pageOne

/-- A server answering every request with `404 Not Found`. -/
def serverNotFound : String → Response := fun _ =>
  { status := 404, text := "Not Found", items := []
    link := none
    rl := { reset := none, remaining := none, limit := none } }

/-- A concrete non-`next` entry `<A>; rel="prev"`. -/
def entryPrev : LinkEntry := ⟨[], ['A'], [' '], ['p', 'r', 'e', 'v']⟩

/-- A concrete `next` entry ` <B>; rel="next"`. -/
def entryNext : LinkEntry := ⟨[' '], ['B'], [' '], ['n', 'e', 'x', 't']⟩

/-- A concrete trailing entry ` <C>; rel="last"`. -/
def entryLast : LinkEntry := ⟨[' '], ['C'], [], ['l', 'a', 's', 't']⟩

/-- Whether an event is the pre-flight rate-limit check. -/
def isPreflightEv : Ev → Bool
  | Ev.preflight => true
  | _ => false

/-- Whether an event is an HTTP request. -/
def isRequestEv : Ev → Bool
  | Ev.request _ _ => true
  | _ => false

/-- The requests of a trace, in order, as (URL, query parameters) pairs. -/
def requestsOf (tr : List Ev) : List (String × List (String × String)) :=
  tr.filterMap (fun e =>
    match e with
    | Ev.request u p => some (u, p)
    | _ => none)

/-- The shape of the pagination loop's trace: zero or more successful pages,
each a request immediately followed by its rate-limit sync, optionally ending
in a request followed by a raised status error. -/
inductive PagesShape : List Ev → Prop
  | nil : PagesShape []
  | fail : ∀ u p c b, PagesShape [Ev.request u p, Ev.raiseStatus c b]
  | last : ∀ u p, PagesShape [Ev.request u p, Ev.rlUpdate u]
  | more : ∀ u p t, PagesShape t → PagesShape (Ev.request u p :: Ev.rlUpdate u :: t)

/-- No suffix of `a` (continuing into `b`) is a start of a regex match:
wherever we split `a = a1 ++ a2` with `a2` nonempty, the pattern does not
match at the beginning of `a2 ++ b`. -/
def NoStart (a b : List Char) : Prop :=
  ∀ a1 a2 : List Char, a = a1 ++ a2 → a2 ≠ [] →
    GitHubService.matchAt (a2 ++ b) = none

/-!  Theorems.  Claim theorems are marked with their claim id; unlabeled
lemmas are shared helpers. -/

/-- Claim C1: the Lua conditional multi-set, applied with a candidate
timestamp strictly less than the stored timestamp, leaves the whole store
unchanged and returns 0; applied with a candidate greater than or equal to
the stored timestamp, or when no timestamp is stored, it returns 1 and
writes the provided keys (timestamp, reset always; remaining and limit when
their value is non-empty) with the shared expiry. -/
theorem lua_conditional_multi_set (st : RateLimitStore) (cur : ℚ) (ttl : ℤ)
    (rv mv lv : String) :
    (∀ stored sttl, st.timestamp = some (stored, sttl) → cur < stored →
      luaUpdateRateLimit st cur ttl rv mv lv = (0, st)) ∧
    ((st.timestamp = none ∨
        ∃ stored sttl, st.timestamp = some (stored, sttl) ∧ stored ≤ cur) →
      (luaUpdateRateLimit st cur ttl rv mv lv).1 = 1 ∧
      (luaUpdateRateLimit st cur ttl rv mv lv).2.timestamp = some (cur, ttl) ∧
      (luaUpdateRateLimit st cur ttl rv mv lv).2.reset = some (rv, ttl) ∧
      (mv ≠ "" → (luaUpdateRateLimit st cur ttl rv mv lv).2.remaining = some (mv, ttl)) ∧
      (lv ≠ "" → (luaUpdateRateLimit st cur ttl rv mv lv).2.limit = some (lv, ttl))) := by
  constructor
  · intro stored sttl hst hlt
    simp [luaUpdateRateLimit, hst, not_le.mpr hlt]
  · rintro (hst | ⟨stored, sttl, hst, hle⟩)
    · refine ⟨?_, ?_, ?_, fun hmv => ?_, fun hlv => ?_⟩
      · simp [luaUpdateRateLimit, hst]
      · simp [luaUpdateRateLimit, hst]
      · simp [luaUpdateRateLimit, hst]
      · simp [luaUpdateRateLimit, hst, hmv]
      · simp [luaUpdateRateLimit, hst, hlv]
    · refine ⟨?_, ?_, ?_, fun hmv => ?_, fun hlv => ?_⟩
      · simp [luaUpdateRateLimit, hst, hle]
      · simp [luaUpdateRateLimit, hst, hle]
      · simp [luaUpdateRateLimit, hst, hle]
      · simp [luaUpdateRateLimit, hst, hle, hmv]
      · simp [luaUpdateRateLimit, hst, hle, hlv]

/-- Witness for C1 at a concrete store: a stale candidate (2 against stored
5) is rejected with the store unchanged, while against stored timestamp 1
the same candidate is applied and writes the remaining key with the shared
expiry 60. -/
theorem lua_conditional_multi_set_witness :
    luaUpdateRateLimit ⟨some (5, 100), some ("150", 100), some ("9", 100), some ("10", 100)⟩
        2 60 "160" "7" "8" =
      (0, ⟨some (5, 100), some ("150", 100), some ("9", 100), some ("10", 100)⟩) ∧
    (luaUpdateRateLimit storeFull 2 60 "160" "7" "8").1 = 1 ∧
    (luaUpdateRateLimit storeFull 2 60 "160" "7" "8").2.remaining = some ("7", 60) :=
  ⟨(lua_conditional_multi_set _ 2 60 "160" "7" "8").1 5 100 rfl (by norm_num),
   ((lua_conditional_multi_set storeFull 2 60 "160" "7" "8").2
      (Or.inr ⟨1, 100, rfl, by norm_num⟩)).1,
   ((lua_conditional_multi_set storeFull 2 60 "160" "7" "8").2
      (Or.inr ⟨1, 100, rfl, by norm_num⟩)).2.2.2.1 (by decide)⟩

/-- Claim C2, counterexample: a rate-limit-sync invocation whose response
carries `X-RateLimit-Reset` but no `X-RateLimit-Remaining`/`X-RateLimit-Limit`
headers (remaining and limit arguments are the empty string) changes the
store (timestamp and reset are rewritten) while the remaining key keeps its
old value and old expiry — so the four keys are neither all overwritten in
one step nor all left unchanged. -/
theorem update_rate_limit_not_all_four_cex :
    GitHubService.update_rate_limit headersNoRemaining 100 2 storeFull ≠ storeFull ∧
    (GitHubService.update_rate_limit headersNoRemaining 100 2 storeFull).remaining
      = storeFull.remaining ∧
    (GitHubService.update_rate_limit headersNoRemaining 100 2 storeFull).timestamp
      = some (2, 60) ∧
    storeFull.remaining = some ("9", 100) := by
  refine ⟨?_, ?_, ?_, ?_⟩ <;> decide

/-- Claim C2, amended: every rate-limit-sync write is all-or-nothing gated
by the stored timestamp: either the store is untouched (no reset header, or
the stored timestamp is newer than the candidate), or — in one atomic step —
the timestamp and reset keys are overwritten with the shared TTL
`max(reset - now, 60)`, and the remaining and limit keys are overwritten in
that same step exactly when their header values are non-empty. -/
theorem update_rate_limit_write_atomicity (h : RLHeaders) (now : ℤ) (cur : ℚ)
    (st : RateLimitStore) :
    GitHubService.update_rate_limit h now cur st = st ∨
    ∃ r : ℤ, h.reset = some r ∧
      (GitHubService.update_rate_limit h now cur st).timestamp
        = some (cur, max (r - now) 60) ∧
      (GitHubService.update_rate_limit h now cur st).reset
        = some (toString r, max (r - now) 60) ∧
      (GitHubService.update_rate_limit h now cur st).remaining
        = (if h.remaining.getD "" ≠ "" then some (h.remaining.getD "", max (r - now) 60)
           else st.remaining) ∧
      (GitHubService.update_rate_limit h now cur st).limit
        = (if h.limit.getD "" ≠ "" then some (h.limit.getD "", max (r - now) 60)
           else st.limit) := by
  rcases hr : h.reset with _ | r
  · left
    simp [GitHubService.update_rate_limit, GitHubService.update_rate_limit_call, hr]
  · rcases hts : st.timestamp with _ | ⟨stored, sttl⟩
    · right
      exact ⟨r, rfl, by
        simp [GitHubService.update_rate_limit, GitHubService.update_rate_limit_call, hr,
          luaUpdateRateLimit, hts]⟩
    · by_cases hle : stored ≤ cur
      · right
        exact ⟨r, rfl, by
          simp [GitHubService.update_rate_limit, GitHubService.update_rate_limit_call, hr,
            luaUpdateRateLimit, hts, hle]⟩
      · left
        simp [GitHubService.update_rate_limit, GitHubService.update_rate_limit_call, hr,
          luaUpdateRateLimit, hts, hle]

/-- Claim C8: whenever the response carries the reset header with value `r`,
the TTL argument of the eval call is `max(r - now, 60)`; at `r = now + 10`
it is 60, at `r = now + 3600` it is at most 3600. -/
theorem update_rate_limit_ttl (h : RLHeaders) (now : ℤ) (cur : ℚ) (r : ℤ)
    (hr : h.reset = some r) :
    (GitHubService.update_rate_limit_call h now cur).map EvalCall.ttl
      = some (max (r - now) 60) ∧
    (r = now + 10 →
      (GitHubService.update_rate_limit_call h now cur).map EvalCall.ttl = some 60) ∧
    (r = now + 3600 →
      ∀ t, (GitHubService.update_rate_limit_call h now cur).map EvalCall.ttl = some t →
        t ≤ 3600) := by
  refine ⟨?_, ?_, ?_⟩
  · simp [GitHubService.update_rate_limit_call, hr]
  · intro h10
    subst h10
    simp [GitHubService.update_rate_limit_call, hr]
  · intro h36 t ht
    subst h36
    simp [GitHubService.update_rate_limit_call, hr,
      show now + 3600 - now = (3600 : ℤ) by ring] at ht
    omega

/-- Witness for C8 at concrete headers (`reset = 160`, `now = 100`). -/
theorem update_rate_limit_ttl_witness :
    (GitHubService.update_rate_limit_call headersNoRemaining 100 2).map EvalCall.ttl
      = some (max ((160 : ℤ) - 100) 60) :=
  (update_rate_limit_ttl headersNoRemaining 100 2 160 rfl).1

/-- Claim C4: the pre-flight check sleeps, and then exactly for
`(reset - now) + 1` seconds, precisely when the cached remaining value is
present and below 10 and the cached reset value is present and strictly in
the future; with remaining at 100 it never sleeps, and with reset in the
past it never sleeps. -/
theorem check_rate_limit_spec (remaining reset_time : Option ℤ) (now d : ℤ) :
    (GitHubService.check_rate_limit remaining reset_time now = some d ↔
      (∃ r, remaining = some r ∧ r < 10) ∧
      (∃ t, reset_time = some t ∧ now < t ∧ d = t - now + 1)) ∧
    GitHubService.check_rate_limit (some 5) (some (now + 30)) now = some 31 ∧
    GitHubService.check_rate_limit (some 100) reset_time now = none ∧
    (∀ t, t ≤ now → GitHubService.check_rate_limit remaining (some t) now = none) := by
  refine ⟨⟨?_, ?_⟩, ?_, ?_, ?_⟩
  · intro hd
    cases remaining with
    | none => simp [GitHubService.check_rate_limit] at hd
    | some r =>
      cases reset_time with
      | none =>
        simp only [GitHubService.check_rate_limit] at hd
        split_ifs at hd
      | some t =>
        simp only [GitHubService.check_rate_limit] at hd
        split_ifs at hd with h1 h2
        · have hd2 : t - now + 1 = d := Option.some.inj hd
          exact ⟨⟨r, rfl, h1⟩, t, rfl, by omega, by omega⟩
  · rintro ⟨⟨r, hr, hr10⟩, t, ht, hnt, hd⟩
    subst hr; subst ht; subst hd
    simp [GitHubService.check_rate_limit, hr10, show t - now > 0 by omega]
  · simp [GitHubService.check_rate_limit, show now + 30 - now > 0 by omega]
  · simp [GitHubService.check_rate_limit]
  · intro t ht
    cases remaining with
    | none => simp [GitHubService.check_rate_limit]
    | some r =>
      simp only [GitHubService.check_rate_limit]
      split_ifs with h1 h2
      · omega
      · rfl
      · rfl

/-- Witness for C4: with remaining 5 and reset 30 at time 0 the sleep is 31
seconds; with reset already past (−1) there is no sleep. -/
theorem check_rate_limit_spec_witness :
    GitHubService.check_rate_limit (some 5) (some 30) 0 = some 31 ∧
    GitHubService.check_rate_limit (some 5) (some (-1)) 0 = none :=
  ⟨(check_rate_limit_spec (some 5) (some 30) 0 31).1.mpr
      ⟨⟨5, rfl, by norm_num⟩, 30, rfl, by norm_num, by norm_num⟩,
   (check_rate_limit_spec (some 5) (some 30) 0 31).2.2.2 (-1) (by norm_num)⟩

/-- Claim C10: after `RedisClient.close`, the memoized instance is still
present, so `get_client` hands back the same (now closed) connection id and
creates nothing new (the state is unchanged); after
`GitHubService.close_client`, the singleton field is `None`, so `get_client`
constructs a fresh client with a new id. -/
theorem close_singleton_behavior (s : ConnState) (i : ℕ)
    (hs : s.inst = some i) (hfresh : i < s.nextId) :
    (RedisClient.get_client (RedisClient.close s)).1 = i ∧
    i ∈ (RedisClient.close s).closed ∧
    (RedisClient.get_client (RedisClient.close s)).2 = RedisClient.close s ∧
    (GitHubService.get_client (GitHubService.close_client s)).1 ≠ i ∧
    (GitHubService.get_client (GitHubService.close_client s)).2.inst = some s.nextId := by
  refine ⟨?_, ?_, ?_, ?_, ?_⟩ <;>
    simp [RedisClient.close, RedisClient.get_client,
      GitHubService.close_client, GitHubService.get_client, hs]
  omega

/-- Witness for C10 at the one-connection state `⟨some 0, 1, []⟩`. -/
theorem close_singleton_behavior_witness :
    (RedisClient.get_client (RedisClient.close ⟨some 0, 1, []⟩)).1 = 0 ∧
    0 ∈ (RedisClient.close ⟨some 0, 1, []⟩).closed ∧
    (RedisClient.get_client (RedisClient.close ⟨some 0, 1, []⟩)).2
      = RedisClient.close ⟨some 0, 1, []⟩ ∧
    (GitHubService.get_client (GitHubService.close_client ⟨some 0, 1, []⟩)).1 ≠ 0 ∧
    (GitHubService.get_client (GitHubService.close_client ⟨some 0, 1, []⟩)).2.inst = some 1 :=
  close_singleton_behavior ⟨some 0, 1, []⟩ 0 rfl (by norm_num)

/-- If a character list contains no `>`, the regex cannot match anywhere in
it (the `>` of the pattern is never found). -/
theorem searchFirst_eq_none_of_no_gt (l : List Char) (hl : '>' ∉ l) :
    GitHubService.searchFirst l = none := by
  induction l with
  | nil => rfl
  | cons c t ih =>
    have hct : '>' ∉ t := fun h => hl (List.mem_cons_of_mem _ h)
    have hmc : GitHubService.matchAt (c :: t) = none := by
      by_cases hc : c = '<'
      · subst hc
        have hdw : t.dropWhile (fun c => c != '>') = [] := by
          rw [List.dropWhile_eq_nil_iff]
          intro x hx
          simp only [bne_iff_ne, ne_eq]
          exact fun h => hct (h ▸ hx)
        simp [GitHubService.matchAt, GitHubService.matchAfterLt, hdw]
      · simp [GitHubService.matchAt, hc]
    simp only [GitHubService.searchFirst, hmc]
    exact ih hct

/-- Claim C7: next-URL extraction on a missing header, an empty header, or a
malformed header with no closing angle bracket returns `None` (the total
function never fails), so pagination terminates silently. -/
theorem extract_next_url_malformed (s : String) (hs : '>' ∉ s.toList) :
    GitHubService.extract_next_url none = none ∧
    GitHubService.extract_next_url (some "") = none ∧
    GitHubService.extract_next_url (some s) = none := by
  refine ⟨rfl, by simp [GitHubService.extract_next_url], ?_⟩
  by_cases h0 : s = ""
  · subst h0; simp [GitHubService.extract_next_url]
  · simp [GitHubService.extract_next_url, h0, searchFirst_eq_none_of_no_gt s.data hs]

/-- Witness for C7 on the repo's own malformed test header (unterminated
angle bracket). -/
theorem extract_next_url_malformed_witness :
    GitHubService.extract_next_url none = none ∧
    GitHubService.extract_next_url (some "") = none ∧
    GitHubService.extract_next_url (some "<https://api.github.com/page2; rel=\"next\"") = none :=
  extract_next_url_malformed "<https://api.github.com/page2; rel=\"next\"" (by decide)

/-- The pagination loop's trace always has the page shape: per page a
request immediately followed by its rate-limit sync, except that a failing
page ends the trace with its raised error. -/
theorem getLoop_shape (server : String → Response) :
    ∀ fuel url p acc, PagesShape (GitHubService.getLoop server fuel url p acc).1 := by
  intro fuel
  induction fuel with
  | zero => intro url p acc; exact PagesShape.nil
  | succ n ih =>
    intro url p acc
    cases h2 : is2xx (server url).status with
    | false =>
      simp [GitHubService.getLoop, h2]
      exact PagesShape.fail _ _ _ _
    | true =>
      rcases hx : GitHubService.extract_next_url (server url).link with _ | nextUrl
      · simp [GitHubService.getLoop, h2, hx]
        exact PagesShape.last _ _
      · simp [GitHubService.getLoop, h2, hx]
        exact PagesShape.more _ _ _ (ih _ _ _)

/-- A page-shaped trace contains no pre-flight event. -/
theorem pagesShape_no_preflight {t : List Ev} (h : PagesShape t) :
    ∀ e ∈ t, e ≠ Ev.preflight := by
  induction h with
  | nil => simp
  | fail u p c b =>
    intro e he hpe
    subst hpe
    simp at he
  | last u p =>
    intro e he hpe
    subst hpe
    simp at he
  | more u p t ht ih =>
    intro e he hpe
    subst hpe
    simp at he
    exact ih _ he rfl

/-- Claim C3, counterexample: in a two-page paginated `get()` the trace has
two requests but only one pre-flight check, so the pre-flight step is NOT
repeated for every page (steps 2-4 are, step 1 is not). -/
theorem get_preflight_once_cex :
    (GitHubService.get serverTwoPages 5 "x" none true).1.countP isPreflightEv = 1 ∧
    (GitHubService.get serverTwoPages 5 "x" none true).1.countP isRequestEv = 2 ∧
    ¬ ((GitHubService.get serverTwoPages 5 "x" none true).1.countP isRequestEv ≤
        (GitHubService.get serverTwoPages 5 "x" none true).1.countP isPreflightEv) := by
  refine ⟨by decide, by decide, by decide⟩

/-- Claim C3, amended: in a paginated `get()` the pre-flight check runs
exactly once, before the first page's request; steps 2-4 are repeated for
every page, each page's request immediately preceding that page's
rate-limit sync (or its raised error, which ends the call). -/
theorem get_paginated_step_order (server : String → Response) (fuel : ℕ)
    (endpoint : String) (params : Option (List (String × String))) :
    ∃ t, (GitHubService.get server fuel endpoint params true).1 = Ev.preflight :: t ∧
      PagesShape t ∧ ∀ e ∈ t, e ≠ Ev.preflight := by
  refine ⟨(GitHubService.getLoop server fuel (GitHubService.base_url ++ "/" ++ endpoint)
      (params.getD []) []).1, ?_, getLoop_shape server fuel _ _ _,
      pagesShape_no_preflight (getLoop_shape server fuel _ _ _)⟩
  simp [GitHubService.get]

/-- In the pagination loop, a raised status error is always the last event
of the trace, the loop's result is exactly that error, and the raise
immediately follows the request of the failing page — in particular no
rate-limit sync and no retry happen for that response. -/
theorem getLoop_raise_terminal (server : String → Response) :
    ∀ fuel url p acc (i c : ℕ) (b : String),
      (GitHubService.getLoop server fuel url p acc).1.get? i = some (Ev.raiseStatus c b) →
      i + 1 = (GitHubService.getLoop server fuel url p acc).1.length ∧
      (GitHubService.getLoop server fuel url p acc).2 = Except.error (c, b) ∧
      ∃ j u q, i = j + 1 ∧
        (GitHubService.getLoop server fuel url p acc).1.get? j = some (Ev.request u q) := by
  intro fuel
  induction fuel with
  | zero =>
    intro url p acc i c b h
    simp [GitHubService.getLoop] at h
  | succ n ih =>
    intro url p acc i c b h
    cases h2 : is2xx (server url).status with
    | false =>
      simp only [GitHubService.getLoop, h2, Bool.false_eq_true, if_false] at h ⊢
      rcases i with _ | i1
      · simp at h
      · rcases i1 with _ | i2
        · simp only [List.get?_cons_succ, List.get?_cons_zero, Option.some.injEq] at h
          obtain ⟨hc, hb⟩ := Ev.raiseStatus.inj h
          subst hc; subst hb
          exact ⟨rfl, rfl, 0, url, p, rfl, rfl⟩
        · simp at h
    | true =>
      rcases hx : GitHubService.extract_next_url (server url).link with _ | nextUrl
      · simp only [GitHubService.getLoop, h2, if_true, hx] at h ⊢
        rcases i with _ | i1
        · simp at h
        · rcases i1 with _ | i2 <;> simp at h
      · simp only [GitHubService.getLoop, h2, if_true, hx] at h ⊢
        rcases i with _ | i1
        · simp at h
        · rcases i1 with _ | i2
          · simp at h
          · simp only [List.get?_cons_succ] at h
            obtain ⟨hlen, hres, j, u, q, hj, hreq⟩ := ih _ _ _ i2 c b h
            refine ⟨?_, hres, j + 2, u, q, by omega, ?_⟩
            · simp only [List.length_cons]
              omega
            · simp only [List.get?_cons_succ]
              exact hreq

/-- Claim C5: every raised HTTP status error inside `get()` carries the
response's status code and body, is the last event of the call (so no
rate-limit-record write is attempted for that response and no retry is
performed), immediately follows its request, and is exactly the error the
call propagates. -/
theorem get_raise_before_update (server : String → Response) (fuel : ℕ)
    (endpoint : String) (params : Option (List (String × String))) (paginate : Bool)
    (i c : ℕ) (b : String)
    (h : (GitHubService.get server fuel endpoint params paginate).1.get? i
      = some (Ev.raiseStatus c b)) :
    i + 1 = (GitHubService.get server fuel endpoint params paginate).1.length ∧
    (GitHubService.get server fuel endpoint params paginate).2 = Except.error (c, b) ∧
    ∃ j u q, i = j + 1 ∧
      (GitHubService.get server fuel endpoint params paginate).1.get? j
        = some (Ev.request u q) := by
  cases paginate with
  | true =>
    simp only [GitHubService.get, if_true] at h ⊢
    rcases i with _ | k
    · simp at h
    · rw [List.get?_cons_succ] at h
      obtain ⟨hlen, hres, j, u, q, hj, hreq⟩ := getLoop_raise_terminal server fuel _ _ _ k c b h
      refine ⟨?_, hres, j + 1, u, q, by omega, ?_⟩
      · simp only [List.length_cons]
        omega
      · rw [List.get?_cons_succ]
        exact hreq
  | false =>
    cases h2 : is2xx (server (GitHubService.base_url ++ "/" ++ endpoint)).status with
    | true =>
      simp only [GitHubService.get, Bool.false_eq_true, if_false, h2, if_true] at h
      rcases i with _ | i1
      · simp at h
      · rcases i1 with _ | i2
        · simp at h
        · rcases i2 with _ | i3 <;> simp at h
    | false =>
      simp only [GitHubService.get, Bool.false_eq_true, if_false, h2] at h ⊢
      rcases i with _ | i1
      · simp at h
      · rcases i1 with _ | i2
        · simp at h
        · rcases i2 with _ | i3
          · simp only [List.get?_cons_succ, List.get?_cons_zero, Option.some.injEq] at h
            obtain ⟨hc, hb⟩ := Ev.raiseStatus.inj h
            subst hc; subst hb
            exact ⟨rfl, rfl, 1, _, _, rfl, rfl⟩
          · simp at h

/-- Witness for C5: against a server that always answers `404 Not Found`,
the raise event at index 2 is terminal and the call propagates
`(404, "Not Found")`. -/
theorem get_raise_before_update_witness :
    2 + 1 = (GitHubService.get serverNotFound 3 "user" none false).1.length ∧
    (GitHubService.get serverNotFound 3 "user" none false).2
      = Except.error (404, "Not Found") ∧
    ∃ j u q, 2 = j + 1 ∧
      (GitHubService.get serverNotFound 3 "user" none false).1.get? j
        = some (Ev.request u q) :=
  get_raise_before_update serverNotFound 3 "user" none false 2 404 "Not Found" (by decide)

/-- In the pagination loop, the first request carries the caller's URL and
params, and every adjacent pair of requests is linked by the `Link` header:
the later request's URL is exactly the next-URL extracted from the earlier
request's response and it carries no query parameters. -/
theorem getLoop_requests (server : String → Response) :
    ∀ fuel url p acc,
      (∀ x ∈ (requestsOf (GitHubService.getLoop server fuel url p acc).1).head?,
        x = (url, p)) ∧
      List.Chain'
        (fun a b => GitHubService.extract_next_url (server a.1).link = some b.1 ∧ b.2 = [])
        (requestsOf (GitHubService.getLoop server fuel url p acc).1) := by
  intro fuel
  induction fuel with
  | zero =>
    intro url p acc
    constructor
    · intro x hx
      simp [GitHubService.getLoop, requestsOf] at hx
    · simp [GitHubService.getLoop, requestsOf]
  | succ n ih =>
    intro url p acc
    cases h2 : is2xx (server url).status with
    | false =>
      simp only [GitHubService.getLoop, h2, Bool.false_eq_true, if_false]
      constructor
      · intro x hx
        simp [requestsOf] at hx
        exact hx.symm
      · simp [requestsOf]
    | true =>
      rcases hx : GitHubService.extract_next_url (server url).link with _ | nextUrl
      · simp only [GitHubService.getLoop, h2, if_true, hx]
        constructor
        · intro x hxm
          simp [requestsOf] at hxm
          exact hxm.symm
        · simp [requestsOf]
      · simp only [GitHubService.getLoop, h2, if_true, hx]
        have hreq : requestsOf (Ev.request url p :: Ev.rlUpdate url ::
            (GitHubService.getLoop server n nextUrl [] (acc ++ (server url).items)).1)
            = (url, p) :: requestsOf (GitHubService.getLoop server n nextUrl []
                (acc ++ (server url).items)).1 := by
          simp [requestsOf]
        rw [hreq]
        obtain ⟨ihhead, ihchain⟩ := ih nextUrl [] (acc ++ (server url).items)
        constructor
        · intro x hxm
          simp at hxm
          exact hxm.symm
        · rw [List.chain'_cons']
          refine ⟨?_, ihchain⟩
          intro y hy
          have hy2 := ihhead y hy
          subst hy2
          exact ⟨hx, rfl⟩

/-- Claim C9: in a paginated `get()`, the first request goes to
`base_url/endpoint` with the caller's query parameters, and every subsequent
request uses the server-supplied next-page URL verbatim and carries no
caller-supplied parameters. -/
theorem get_params_first_page_only (server : String → Response) (fuel : ℕ)
    (endpoint : String) (params : Option (List (String × String))) :
    (∀ x ∈ (requestsOf (GitHubService.get server fuel endpoint params true).1).head?,
      x = (GitHubService.base_url ++ "/" ++ endpoint, params.getD [])) ∧
    List.Chain'
      (fun a b => GitHubService.extract_next_url (server a.1).link = some b.1 ∧ b.2 = [])
      (requestsOf (GitHubService.get server fuel endpoint params true).1) := by
  have h := getLoop_requests server fuel (GitHubService.base_url ++ "/" ++ endpoint)
    (params.getD []) []
  simpa [GitHubService.get, requestsOf] using h

/-- Witness for C9 on the concrete two-page server: the request list is
chained by the extracted next-URLs, with the first request at the caller's
URL and params and the second with empty params. -/
theorem get_params_first_page_only_witness :
    (requestsOf (GitHubService.get serverTwoPages 5 "x" none true).1).head?
      = some (GitHubService.base_url ++ "/x", []) ∧
    List.Chain'
      (fun a b => GitHubService.extract_next_url (serverTwoPages a.1).link = some b.1 ∧ b.2 = [])
      (requestsOf (GitHubService.get serverTwoPages 5 "x" none true).1) :=
  ⟨by decide, (get_params_first_page_only serverTwoPages 5 "x" none).2⟩

/-- Splitting `relLit ++ x` into explicit characters. -/
theorem relLit_append (x : List Char) :
    GitHubService.relLit ++ x = 'r' :: 'e' :: 'l' :: '=' :: '"' :: x := rfl

/-- Splitting `nextLit ++ x` into explicit characters. -/
theorem nextLit_append (x : List Char) :
    GitHubService.nextLit ++ x
      = 'r' :: 'e' :: 'l' :: '=' :: '"' :: 'n' :: 'e' :: 'x' :: 't' :: '"' :: x := rfl

/-- `takeWhile (· != '>')` on a `>`-free block followed by `>` keeps exactly
the block. -/
theorem takeWhile_no_gt (x : List Char) (r : List Char) (hx : '>' ∉ x) :
    (x ++ '>' :: r).takeWhile (fun c => c != '>') = x := by
  induction x with
  | nil => simp [List.takeWhile_cons]
  | cons a t ih =>
    have ha : a ≠ '>' := fun h => hx (h ▸ List.mem_cons_self a t)
    have ht : '>' ∉ t := fun h => hx (List.mem_cons_of_mem _ h)
    simp [List.takeWhile_cons, ha, ih ht]

/-- `dropWhile (· != '>')` on a `>`-free block followed by `>` drops exactly
the block. -/
theorem dropWhile_no_gt (x : List Char) (r : List Char) (hx : '>' ∉ x) :
    (x ++ '>' :: r).dropWhile (fun c => c != '>') = '>' :: r := by
  induction x with
  | nil => simp [List.dropWhile_cons]
  | cons a t ih =>
    have ha : a ≠ '>' := fun h => hx (h ▸ List.mem_cons_self a t)
    have ht : '>' ∉ t := fun h => hx (List.mem_cons_of_mem _ h)
    simp [List.dropWhile_cons, ha, ih ht]

/-- `dropWhile isPySpace` on whitespace followed by `r...` drops exactly the
whitespace. -/
theorem dropWhile_space_rel (w t : List Char) (hw : ∀ c ∈ w, isPySpace c = true) :
    (w ++ 'r' :: t).dropWhile isPySpace = 'r' :: t := by
  induction w with
  | nil => simp [List.dropWhile_cons, isPySpace]
  | cons a wt ih =>
    have ha := hw a (List.mem_cons_self a wt)
    have hwt : ∀ c ∈ wt, isPySpace c = true := fun c hc => hw c (List.mem_cons_of_mem _ hc)
    simp [List.dropWhile_cons, ha, ih hwt]

/-- The literal `rel="next"` is a prefix of itself followed by anything. -/
theorem matchRel_pos (url t : List Char) :
    GitHubService.matchRel url (GitHubService.nextLit ++ t) = some url := by
  have h : GitHubService.nextLit.isPrefixOf (GitHubService.nextLit ++ t) = true :=
    List.isPrefixOf_iff_prefix.mpr (List.prefix_append _ _)
  simp [GitHubService.matchRel, h]

/-- The literal `rel="next"` is not a prefix of `rel="<rel>"...` when the
relation name is not `next` and contains no quote character. -/
theorem not_next_prefix (rel : List Char) (h1 : rel ≠ GitHubService.nextChars)
    (h2 : '"' ∉ rel) (t : List Char) :
    ¬ GitHubService.nextLit <+:
      (GitHubService.relLit ++ (rel ++ '"' :: t)) := by
  intro hp
  obtain ⟨s, hs⟩ := hp
  rw [nextLit_append, relLit_append] at hs
  injection hs with _ hs; injection hs with _ hs; injection hs with _ hs
  injection hs with _ hs; injection hs with _ hs
  -- hs : 'n' :: 'e' :: 'x' :: 't' :: '"' :: s = rel ++ '"' :: t
  rcases rel with _ | ⟨a, rel⟩
  · rw [List.nil_append] at hs
    injection hs with ha _
    exact absurd ha (by decide)
  rcases rel with _ | ⟨b, rel⟩
  · simp only [List.cons_append, List.nil_append] at hs
    injection hs with _ hs; injection hs with hb _
    exact absurd hb (by decide)
  rcases rel with _ | ⟨c2, rel⟩
  · simp only [List.cons_append, List.nil_append] at hs
    injection hs with _ hs; injection hs with _ hs; injection hs with hc _
    exact absurd hc (by decide)
  rcases rel with _ | ⟨d, rel⟩
  · simp only [List.cons_append, List.nil_append] at hs
    injection hs with _ hs; injection hs with _ hs; injection hs with _ hs
    injection hs with hd _
    exact absurd hd (by decide)
  rcases rel with _ | ⟨e2, rel⟩
  · simp only [List.cons_append, List.nil_append] at hs
    injection hs with ha hs; injection hs with hb hs; injection hs with hc hs
    injection hs with hd _
    exact h1 (by rw [← ha, ← hb, ← hc, ← hd]; rfl)
  · simp only [List.cons_append] at hs
    injection hs with _ hs; injection hs with _ hs; injection hs with _ hs
    injection hs with _ hs; injection hs with he _
    exact h2 (by
      rw [← he]
      exact List.mem_cons_of_mem _ (List.mem_cons_of_mem _ (List.mem_cons_of_mem _
        (List.mem_cons_of_mem _ (List.mem_cons_self _ _)))))

/-- Leftmost search skips a block at whose suffixes the pattern never
matches. -/
theorem searchFirst_append_of_noStart (a b : List Char) (h : NoStart a b) :
    GitHubService.searchFirst (a ++ b) = GitHubService.searchFirst b := by
  induction a with
  | nil => simp
  | cons c t ih =>
    have h1 : GitHubService.matchAt ((c :: t) ++ b) = none :=
      h [] (c :: t) rfl (by simp)
    have h2 : NoStart t b := by
      intro a1 a2 heq hne
      exact h (c :: a1) a2 (by simp [heq]) hne
    rw [List.cons_append]
    have h1c : GitHubService.matchAt (c :: (t ++ b)) = none := by
      rw [← List.cons_append]; exact h1
    simp only [GitHubService.searchFirst, h1c]
    exact ih h2

/-- `NoStart` composes over concatenation. -/
theorem noStart_append (x y b : List Char) (hx : NoStart x (y ++ b))
    (hy : NoStart y b) : NoStart (x ++ y) b := by
  intro a1 a2 heq hne
  rcases List.append_eq_append_iff.mp heq with ⟨w, hw1, hw2⟩ | ⟨w, hw1, hw2⟩
  · exact hy w a2 hw2 hne
  · rcases w with _ | ⟨c, wt⟩
    · rw [List.nil_append] at hw2
      exact hy [] a2 (by simp [hw2]) hne
    · rw [hw2, List.append_assoc]
      exact hx a1 (c :: wt) hw1 (by simp)

/-- Any block free of `<` admits no match start. -/
theorem noStart_of_no_lt (l b : List Char) (h : ∀ c ∈ l, c ≠ '<') :
    NoStart l b := by
  intro a1 a2 heq hne
  rcases a2 with _ | ⟨c, t⟩
  · exact absurd rfl hne
  · have hc : c ∈ l := by rw [heq]; simp
    have hne2 : c ≠ '<' := h c hc
    rw [List.cons_append]
    simp [GitHubService.matchAt, hne2]

/-- Evaluation of the matcher on a well-bracketed candidate `<u>;` followed
by whitespace and `r...`: the URL group is forced, and matching reduces to
the `rel="next"` literal comparison. -/
theorem matchAt_eval (u ws rel2 : List Char) (hgt : '>' ∉ u)
    (hws : ∀ c ∈ ws, isPySpace c = true) :
    GitHubService.matchAt ('<' :: (u ++ '>' :: ';' :: (ws ++ 'r' :: rel2)))
      = if u = [] then none else GitHubService.matchRel u ('r' :: rel2) := by
  simp only [GitHubService.matchAt, GitHubService.matchAfterLt, if_pos rfl, if_true,
    dropWhile_no_gt u _ hgt, takeWhile_no_gt u _ hgt, dropWhile_space_rel ws _ hws]

/-- The matcher rejects a candidate whose relation name is not `next`. -/
theorem matchAt_entry_neg (u ws rel tail : List Char) (hgt : '>' ∉ u)
    (hws : ∀ c ∈ ws, isPySpace c = true) (h1 : rel ≠ GitHubService.nextChars)
    (h2 : '"' ∉ rel) :
    GitHubService.matchAt ('<' :: (u ++ '>' :: ';' ::
      (ws ++ (GitHubService.relLit ++ (rel ++ '"' :: tail))))) = none := by
  rw [relLit_append]
  rw [matchAt_eval u ws ('e' :: 'l' :: '=' :: '"' :: (rel ++ '"' :: tail)) hgt hws]
  by_cases hu : u = []
  · simp [hu]
  · rw [if_neg hu]
    have hpf : GitHubService.nextLit.isPrefixOf
        ('r' :: 'e' :: 'l' :: '=' :: '"' :: (rel ++ '"' :: tail)) = false := by
      rw [← relLit_append]
      by_contra hb
      have := List.isPrefixOf_iff_prefix.mp (Bool.not_eq_false _ ▸ hb)
      exact not_next_prefix rel h1 h2 tail this
    simp [GitHubService.matchRel, hpf]

/-- The matcher accepts a well-formed candidate whose relation is `next`,
capturing exactly the URL. -/
theorem matchAt_entry_pos (u ws tail : List Char) (hu : u ≠ []) (hgt : '>' ∉ u)
    (hws : ∀ c ∈ ws, isPySpace c = true) :
    GitHubService.matchAt ('<' :: (u ++ '>' :: ';' ::
      (ws ++ (GitHubService.nextLit ++ tail)))) = some u := by
  rw [nextLit_append]
  rw [matchAt_eval u ws ('e' :: 'l' :: '=' :: '"' :: 'n' :: 'e' :: 'x' :: 't' :: '"' :: tail)
    hgt hws]
  rw [if_neg hu, ← nextLit_append]
  exact matchRel_pos u tail

/-- No suffix of `<url` (for a `>`-free URL) starts a match when what
follows is `>;` whitespace and a non-`next` relation. -/
theorem noStart_entry_lt (u ws rel b : List Char) (hgt : '>' ∉ u)
    (hws : ∀ c ∈ ws, isPySpace c = true) (h1 : rel ≠ GitHubService.nextChars)
    (h2 : '"' ∉ rel) :
    NoStart ('<' :: u)
      ('>' :: ';' :: (ws ++ (GitHubService.relLit ++ (rel ++ '"' :: b)))) := by
  intro a1 a2 heq hne
  rcases a1 with _ | ⟨c0, a1t⟩
  · have ha2 : a2 = '<' :: u := by simpa using heq.symm
    subst ha2
    rw [List.cons_append]
    exact matchAt_entry_neg u ws rel b hgt hws h1 h2
  · injection heq with hc0 hu
    rcases a2 with _ | ⟨c1, a2t⟩
    · exact absurd rfl hne
    · by_cases hc1 : c1 = '<'
      · subst hc1
        have hgt2 : '>' ∉ a2t := fun hm =>
          hgt (by rw [hu]; exact List.mem_append_right _ (List.mem_cons_of_mem _ hm))
        rw [List.cons_append]
        exact matchAt_entry_neg a2t ws rel b hgt2 hws h1 h2
      · rw [List.cons_append]
        simp [GitHubService.matchAt, hc1]

/-- No suffix of a rendered non-`next` entry starts a match, whatever
follows it in the header. -/
theorem noStart_entry (e : LinkEntry) (b : List Char) (hwf : EntryWF e)
    (hnn : e.rel ≠ GitHubService.nextChars) : NoStart (renderEntry e) b := by
  obtain ⟨hpre, hurl, hgt, hws, hrel⟩ := hwf
  have hsplit : renderEntry e
      = e.pre ++ (('<' :: e.url) ++ ('>' :: ';' ::
        (e.ws ++ (GitHubService.relLit ++ (e.rel ++ ['"']))))) := by
    simp [renderEntry]
  rw [hsplit]
  apply noStart_append
  · apply noStart_of_no_lt
    intro c hc hceq
    have := hpre c hc
    subst hceq
    simp [isPySpace] at this
  · apply noStart_append
    · have hR : ('>' :: ';' :: (e.ws ++ (GitHubService.relLit ++ (e.rel ++ ['"'])))) ++ b
          = '>' :: ';' :: (e.ws ++ (GitHubService.relLit ++ (e.rel ++ '"' :: b))) := by
        simp
      rw [hR]
      exact noStart_entry_lt e.url e.ws e.rel b hgt hws hnn
        (fun hq => (hrel '"' hq).2.2 rfl)
    · apply noStart_of_no_lt
      intro c hc hceq
      subst hceq
      simp [GitHubService.relLit] at hc
      rcases hc with h | h
      · have := hws '<' h
        simp [isPySpace] at this
      · exact (hrel '<' h).1 rfl

/-- Leftmost search on a rendered `next` entry followed by anything returns
exactly that entry's URL. -/
theorem searchFirst_entry_next (e : LinkEntry) (rest : List Char)
    (hwf : EntryWF e) (hnext : e.rel = GitHubService.nextChars) :
    GitHubService.searchFirst (renderEntry e ++ rest) = some e.url := by
  obtain ⟨hpre, hurl, hgt, hws, hrel⟩ := hwf
  have hsplit : renderEntry e ++ rest
      = e.pre ++ ('<' :: (e.url ++ '>' :: ';' ::
        (e.ws ++ (GitHubService.nextLit ++ rest)))) := by
    simp [renderEntry, GitHubService.nextLit, hnext]
  rw [hsplit]
  rw [searchFirst_append_of_noStart _ _ (noStart_of_no_lt _ _ (by
    intro c hc hceq
    have := hpre c hc
    subst hceq
    simp [isPySpace] at this))]
  have hm := matchAt_entry_pos e.url e.ws rest hurl hgt hws
  simp only [GitHubService.searchFirst, hm]

/-- Claim C6: for a well-formed `Link` header that is a comma-separated list
of `<url>; rel="name"` entries (arbitrary whitespace padding, arbitrary
other relations before and after), where the first `next` entry is `e`,
`extract_next_url` returns exactly `e`'s bracketed URL. -/
theorem extract_next_url_refinement (pre post : List LinkEntry) (e : LinkEntry)
    (hpre : ∀ x ∈ pre, EntryWF x ∧ x.rel ≠ GitHubService.nextChars)
    (he : EntryWF e) (hnext : e.rel = GitHubService.nextChars) :
    GitHubService.extract_next_url
        (some (String.mk (renderHeader (pre ++ e :: post))))
      = some (String.mk e.url) := by
  have hsearch : GitHubService.searchFirst (renderHeader (pre ++ e :: post))
      = some e.url := by
    induction pre with
    | nil =>
      rw [List.nil_append,
        show renderHeader (e :: post) = renderEntry e ++ renderTail post from rfl]
      exact searchFirst_entry_next e _ he hnext
    | cons x xs ih =>
      have hx := hpre x (List.mem_cons_self _ _)
      have hxs : ∀ y ∈ xs, EntryWF y ∧ y.rel ≠ GitHubService.nextChars :=
        fun y hy => hpre y (List.mem_cons_of_mem _ hy)
      rw [List.cons_append,
        show renderHeader (x :: (xs ++ e :: post))
          = renderEntry x ++ renderTail (xs ++ e :: post) from rfl]
      have htail : renderTail (xs ++ e :: post)
          = ',' :: renderHeader (xs ++ e :: post) := by
        cases hxe : xs ++ e :: post with
        | nil => exact absurd hxe (by simp)
        | cons y ys => rfl
      rw [htail]
      rw [searchFirst_append_of_noStart _ _ (noStart_entry x _ hx.1 hx.2)]
      rw [show (',' :: renderHeader (xs ++ e :: post))
          = [','] ++ renderHeader (xs ++ e :: post) from rfl]
      rw [searchFirst_append_of_noStart _ _ (noStart_of_no_lt _ _ (by
        intro c hc
        simp at hc
        subst hc
        decide))]
      exact ih hxs
  have hne : renderHeader (pre ++ e :: post) ≠ [] := by
    cases pre with
    | nil => simp [renderHeader, renderEntry]
    | cons x xs => simp [renderHeader, renderEntry]
  simp only [GitHubService.extract_next_url]
  rw [if_neg (by
    intro hh
    exact hne (by simpa [String.ext_iff] using hh))]
  rw [show (String.mk (renderHeader (pre ++ e :: post))).toList
      = renderHeader (pre ++ e :: post) from rfl]
  rw [hsearch]
  rfl

/-- Witness for C6 on the concrete header
`<A>; rel="prev", <B>; rel="next", <C>; rel="last"`: the extracted URL is
`B`. -/
theorem extract_next_url_refinement_witness :
    GitHubService.extract_next_url
        (some (String.mk (renderHeader [entryPrev, entryNext, entryLast])))
      = some (String.mk entryNext.url) :=
  extract_next_url_refinement [entryPrev] [entryLast] entryNext
    (by decide) (by decide) (by decide)
